import Mathlib

/-!
# Verification of the CLAUDE.md bootstrap tool

A shallow embedding of src/setup.py.  Text is modelled as `List Char`;
Python string primitives (`find`, `in`, slicing, `rstrip`, `replace`,
`strip`, `lower`) are given executable Lean counterparts, and the
section-merge routine `merge_into`, the placeholder filler and the
interactive `main` flow are translated from the source line by line.
-/

namespace Setup

/-- Text is modelled as a list of characters. -/
abbrev Str := List Char

/-- Convert a Lean string literal to the character-list model. -/
def toL (s : String) : Str := s.data

/-- ASCII whitespace, as recognised by Python's str.rstrip / str.strip and
by the regex class \s: space, tab, newline, carriage return, vertical tab,
form feed. -/
def isPySpace (c : Char) : Bool :=
  c = ' ' || c = '\t' || c = '\n' || c = '\r' || c = Char.ofNat 11 || c = Char.ofNat 12

/-- Does `pat` occur at the very start of `s`? -/
def startsB : Str → Str → Bool
  | [], _ => true
  | _ :: _, [] => false
  | p :: ps, c :: cs => p == c && startsB ps cs

/-- Python substring containment (`pat in s`). -/
def containsSub (pat : Str) : Str → Bool
  | [] => pat.isEmpty
  | c :: t => startsB pat (c :: t) || containsSub pat t

/-- Python `s.find(pat)`: index of the leftmost occurrence, `none` for -1. -/
def firstIdx (pat : Str) : Str → Option Nat
  | [] => if pat.isEmpty then some 0 else none
  | c :: t => if startsB pat (c :: t) then some 0 else (firstIdx pat t).map (· + 1)

/-- Python `s.find(pat, i)`: leftmost occurrence at index ≥ i. -/
def firstIdxFrom (pat s : Str) (i : Nat) : Option Nat :=
  (firstIdx pat (s.drop i)).map (· + i)

/-- Python slice `s[a:b]` (with `a ≤ b` as in all call sites). -/
def pySlice (s : Str) (a b : Nat) : Str := (s.drop a).take (b - a)

/-- Python `s.rstrip()`: remove trailing whitespace. -/
def rstrip (s : Str) : Str := (s.reverse.dropWhile isPySpace).reverse

/-- Python `s.count(c)` for a single character. -/
def countChar (c : Char) (s : Str) : Nat := (s.filter (· == c)).length

/-- setup.py line 110: `len(heading) - len(heading.lstrip("#"))`,
the number of leading hash marks. -/
def headingLevel (h : Str) : Nat := h.length - (h.dropWhile (· == '#')).length

/-- Is the first character of `s` whitespace? -/
def headIsWs : Str → Bool
  | [] => false
  | c :: _ => isPySpace c

/-- One match attempt of the regex `\n(#{1,L})\s` at the start of `s`
(setup.py line 113): succeeds iff `s` begins with a newline, then `k` hash
marks for some 1 ≤ k ≤ L, then a whitespace character (the regex engine
backtracks over the greedy `#{1,L}`, so any viable `k` makes a match). -/
def reMatchAt (L : Nat) : Str → Bool
  | [] => false
  | c :: t =>
      c == '\n' &&
      (List.range L).any (fun k =>
        startsB (List.replicate (k + 1) '#') t && headIsWs (t.drop (k + 1)))

/-- Index of the first match of the regex `\n(#{1,L})\s` in `s`
(re.finditer followed by an immediate break, setup.py lines 113-115). -/
def firstMatch (L : Nat) : Str → Option Nat
  | [] => none
  | c :: t => if reMatchAt L (c :: t) then some 0 else (firstMatch L t).map (· + 1)

/-- The fixed recognized-heading list (setup.py lines 17-24). -/
def WORKFLOW_SECTIONS : List Str :=
  [toL "## Workflow: Plan → Grind",
   toL "### Plan (default)",
   toL "### Grind (on approval)",
   toL "### Fullgate",
   toL "### Claiming Work (GitHub)",
   toL "### Teams"]

/-- The value the dead computation at setup.py lines 99-106 leaves in `end`
just before line 112 overwrites it: a `"\n## "` search from `start + 1`,
adjusted by a search for a newline, `heading.count("#")` hash marks and a
space. -/
def deadEnd (block : Str) (start : Nat) (heading : Str) : Nat :=
  match firstIdxFrom (toL "\n## ") block (start + 1) with
  | none => block.length
  | some e =>
      match firstIdxFrom ('\n' :: (List.replicate (countChar '#' heading) '#' ++ [' ']))
          block (start + heading.length) with
      | some e2 => if e2 < e then e2 else e
      | none => e

/-- The final boundary scan, setup.py lines 110-115: the level-L regex
search starting right after the heading text; end of block when no match. -/
def sectionEnd (block : Str) (start : Nat) (heading : Str) : Nat :=
  let level := headingLevel heading
  let searchStart := start + heading.length
  match firstMatch level (block.drop searchStart) with
  | some i => searchStart + i
  | none => block.length

/-- Section extraction, setup.py lines 99-116: the dead boundary value is
computed and discarded, the final scan decides the span, and the span is
right-stripped with one newline appended. -/
def extractSection (block : Str) (start : Nat) (heading : Str) : Str :=
  let _e := deadEnd block start heading
  rstrip (pySlice block start (sectionEnd block start heading)) ++ ['\n']

/-- The loop of setup.py lines 93-117: for each recognized heading missing
from the existing text and present in the workflow block, collect its
extracted section, in list order. -/
def collectAdded (existing block : Str) : List Str → List Str
  | [] => []
  | h :: hs =>
      if containsSub h existing then collectAdded existing block hs
      else
        match firstIdx h block with
        | none => collectAdded existing block hs
        | some start => extractSection block start h :: collectAdded existing block hs

/-- Which of the three exit messages merge_into prints. -/
inductive MergeMsg
  | noWorkflow
  | allPresent
  | merged
  deriving DecidableEq, Repr

/-- Outcome of merge_into: the file content afterwards, the list of
sections appended, and which message was printed. -/
structure MergeResult where
  content : Str
  added : List Str
  msg : MergeMsg
  deriving DecidableEq, Repr

/-- Did merge_into write to the file? -/
def MergeResult.wrote (r : MergeResult) : Bool := r.msg == MergeMsg.merged

/-- The bytes appended by setup.py lines 123-126: one newline, then each
section preceded by one newline. -/
def appendedText (added : List Str) : Str :=
  '\n' :: (added.map (fun s => '\n' :: s)).flatten

/-- setup.py line 84: `WORKFLOW_SECTIONS[0]`, the heading that anchors the
workflow block. -/
def firstSectionHeading : Str := WORKFLOW_SECTIONS.headD []

/-- setup.py lines 78-128, merge_into: locate the workflow block at the
first occurrence of the first recognized heading, collect the missing
sections, and append them (or report that there is nothing to do). -/
def merge_into (existing template : Str) : MergeResult :=
  match firstIdx firstSectionHeading template with
  | none => ⟨existing, [], .noWorkflow⟩
  | some idx =>
      let block := template.drop idx
      let added := collectAdded existing block WORKFLOW_SECTIONS
      if added.isEmpty then ⟨existing, [], .allPresent⟩
      else ⟨existing ++ appendedText added, added, .merged⟩

/-- The scan behind Python `s.replace(pat, rep)`, written with an explicit
fuel argument so that the recursion is structural: each step consumes at
least one character, so any fuel of at least the text's length gives the
replacement semantics. -/
def pyReplaceFuel (pat rep : Str) : Nat → Str → Str
  | _, [] => []
  | 0, s => s
  | fuel + 1, c :: t =>
      if pat ≠ [] ∧ startsB pat (c :: t) = true then
        rep ++ pyReplaceFuel pat rep fuel ((c :: t).drop pat.length)
      else
        c :: pyReplaceFuel pat rep fuel t

/-- Python `s.replace(pat, rep)` for the nonempty patterns the tool uses:
every leftmost non-overlapping occurrence of `pat` is replaced by `rep`,
and the inserted `rep` is never rescanned.  (An empty pattern, which the
tool never passes, leaves the text unchanged here.) -/
def pyReplace (s pat rep : Str) : Str := pyReplaceFuel pat rep s.length s

/-- The project-name placeholder token (setup.py line 175). -/
def PROJECT_NAME_TOKEN : Str := toL "\x7b\x7bPROJECT_NAME\x7d\x7d"

/-- The build-command placeholder token (setup.py line 176). -/
def BUILD_COMMAND_TOKEN : Str := toL "\x7b\x7bBUILD_COMMAND\x7d\x7d"

/-- The test-command placeholder token (setup.py line 177). -/
def TEST_COMMAND_TOKEN : Str := toL "\x7b\x7bTEST_COMMAND\x7d\x7d"

/-- setup.py lines 174-177: the three placeholder replacements, in the
fixed source order project name, build command, test command. -/
def fillTemplate (t name build test : Str) : Str :=
  pyReplace (pyReplace (pyReplace t PROJECT_NAME_TOKEN name) BUILD_COMMAND_TOKEN build)
    TEST_COMMAND_TOKEN test

/-- Python `s.strip()`: remove leading and trailing whitespace. -/
def pyStrip (s : Str) : Str := rstrip ((s.dropWhile isPySpace))

/-- Python `s.lower()` restricted to ASCII letters. -/
def asciiLower (s : Str) : Str :=
  s.map (fun c => if 'A' ≤ c && c ≤ 'Z' then Char.ofNat (c.toNat + 32) else c)

/-- setup.py line 153: the raw prompt answer after `.strip().lower()`. -/
def normChoice (raw : Str) : Str := asciiLower (pyStrip raw)

/-- setup.py lines 72-75, prompt: the stripped answer, or the default when
the stripped answer is empty. -/
def promptVal (answer default : Str) : Str :=
  let a := pyStrip answer
  if a.isEmpty then default else a

/-- The filesystem state the tool touches: the content of CLAUDE.md when it
exists, and whether AGENTS.md exists. -/
structure FS where
  claude : Option Str
  agents : Bool
  deriving DecidableEq, Repr

/-- How a run of main ends. -/
inductive MainOutcome
  | fetchFailed
  | cancelled
  | finished
  deriving DecidableEq, Repr

/-- setup.py lines 131-142, create_agents_symlink: skip when AGENTS.md
exists, otherwise create it (symlink or copy — modelled as existence). -/
def create_agents_symlink (fs : FS) : FS :=
  if fs.agents then fs else { fs with agents := true }

/-- setup.py lines 145-190, main, with the environment made explicit:
`net` is the download result (error when the fetch raises), `fs` the
relevant filesystem state, `rawChoice` the raw overwrite/merge/cancel
answer, `nameAns`/`buildAns`/`testAns` the raw prompt answers,
`defaults` the (name, build, test) defaults from the detectors.
Returns how the run ended together with the final filesystem state. -/
def pyMain (net : Except Unit Str) (fs : FS) (rawChoice nameAns buildAns testAns : Str)
    (defaults : Str × Str × Str) : MainOutcome × FS :=
  match net with
  | .error _ => (.fetchFailed, fs)
  | .ok template =>
      let claudeExists := fs.claude.isSome
      let choice : Option Str := if claudeExists then some (normChoice rawChoice) else none
      if choice = some (toL "c") || choice = some [] then (.cancelled, fs)
      else
        let name := promptVal nameAns defaults.1
        let build := promptVal buildAns defaults.2.1
        let test := promptVal testAns defaults.2.2
        let filled := fillTemplate template name build test
        let fs1 : FS :=
          if choice = some (toL "m") then
            { fs with claude := some (merge_into (fs.claude.getD []) filled).content }
          else
            { fs with claude := some filled }
        let fs2 : FS :=
          if choice = some (toL "m") && fs1.agents then fs1
          else create_agents_symlink fs1
        (.finished, fs2)

/-- Join a list of texts with a separator between consecutive elements. -/
def joinWith (sep : Str) : List Str → Str
  | [] => []
  | [x] => x
  | x :: y :: zs => x ++ sep ++ joinWith sep (y :: zs)

/-- Prepend a character to the first piece of a piece list. -/
def consHead (c : Char) : List Str → List Str
  | [] => [[c]]
  | p :: ps => (c :: p) :: ps

/-- Python `s.split(pat)` for a nonempty separator: the pieces of `s`
between leftmost non-overlapping occurrences of `pat`. -/
def pySplit (s pat : Str) : List Str :=
  match s with
  | [] => [[]]
  | c :: t =>
      if pat ≠ [] ∧ startsB pat (c :: t) = true then
        [] :: pySplit ((c :: t).drop pat.length) pat
      else
        consHead c (pySplit t pat)
termination_by s.length
decreasing_by
  · simp only [List.length_drop]
    rename_i h
    have hp : 0 < pat.length := List.length_pos.mpr h.1
    simp only [List.length_cons]
    omega
  · simp

/-- The three placeholder replacements performed in a different order
(build command first), as claim C6's order-independence would allow. -/
def fillTemplateAltOrder (t name build test : Str) : Str :=
  pyReplace (pyReplace (pyReplace t BUILD_COMMAND_TOKEN build) PROJECT_NAME_TOKEN name)
    TEST_COMMAND_TOKEN test

/-- The boundary match exactly as claim C1 states it: a newline followed by
1..L hash marks and a literal space (where the code's regex accepts any
whitespace character after the hash marks). -/
def reMatchSpaceAt (L : Nat) : Str → Bool
  | [] => false
  | c :: t =>
      c == '\n' &&
      (List.range L).any (fun k =>
        startsB (List.replicate (k + 1) '#' ++ [' ']) t)

/-- Index of the first claim-C1-style boundary match in `s`. -/
def firstMatchSpace (L : Nat) : Str → Option Nat
  | [] => none
  | c :: t => if reMatchSpaceAt L (c :: t) then some 0 else (firstMatchSpace L t).map (· + 1)

/-- The section end as claim C1 states it: the first subsequent match of a
newline, 1..L hash marks and a space, or end of block. -/
def sectionEndSpace (block : Str) (start : Nat) (heading : Str) : Nat :=
  let level := headingLevel heading
  let searchStart := start + heading.length
  match firstMatchSpace level (block.drop searchStart) with
  | some i => searchStart + i
  | none => block.length

/-- A boundary of a level-L section starts at index `j` of `s`: a newline,
then `k` hash marks for some 1 ≤ k ≤ L, then a whitespace character. -/
def HeadingBoundaryAt (L : Nat) (s : Str) (j : Nat) : Prop :=
  ∃ k c r, 1 ≤ k ∧ k ≤ L ∧ isPySpace c = true ∧
    s.drop j = '\n' :: (List.replicate k '#' ++ c :: r)

/-- Section extraction with only the final line-level scan, the dead
boundary computation of setup.py lines 99-106 removed (claim C7's
variant). -/
def extractSectionSimple (block : Str) (start : Nat) (heading : Str) : Str :=
  rstrip (pySlice block start (sectionEnd block start heading)) ++ ['\n']

/-- The collection loop built on the simplified extraction. -/
def collectAddedSimple (existing block : Str) : List Str → List Str
  | [] => []
  | h :: hs =>
      if containsSub h existing then collectAddedSimple existing block hs
      else
        match firstIdx h block with
        | none => collectAddedSimple existing block hs
        | some start => extractSectionSimple block start h :: collectAddedSimple existing block hs

/-- merge_into built on the simplified extraction: the claim C7 variant in
which only the final line-level scan determines each section's end. -/
def mergeIntoSimple (existing template : Str) : MergeResult :=
  match firstIdx firstSectionHeading template with
  | none => ⟨existing, [], .noWorkflow⟩
  | some idx =>
      let block := template.drop idx
      let added := collectAddedSimple existing block WORKFLOW_SECTIONS
      if added.isEmpty then ⟨existing, [], .allPresent⟩
      else ⟨existing ++ appendedText added, added, .merged⟩

/-! ## Lemmas about the string primitives -/

theorem startsB_iff (p : Str) : ∀ s : Str, startsB p s = true ↔ ∃ r, s = p ++ r := by
  induction p with
  | nil => intro s; simp [startsB]
  | cons a ps ih =>
      intro s
      cases s with
      | nil =>
          simp only [startsB, List.cons_append]
          constructor
          · intro h; exact absurd h (by simp)
          · rintro ⟨r, hr⟩; cases hr
      | cons c t =>
          simp only [startsB, Bool.and_eq_true, beq_iff_eq, ih t]
          constructor
          · rintro ⟨rfl, r, rfl⟩; exact ⟨r, rfl⟩
          · rintro ⟨r, hr⟩
            injection hr with h1 h2
            exact ⟨h1.symm, r, h2⟩

theorem containsSub_iff (p : Str) : ∀ s : Str, containsSub p s = true ↔ ∃ a b, s = a ++ p ++ b := by
  intro s
  induction s with
  | nil =>
      simp only [containsSub, List.isEmpty_iff]
      constructor
      · rintro rfl; exact ⟨[], [], rfl⟩
      · rintro ⟨a, b, hab⟩
        rcases List.append_eq_nil.mp (List.append_eq_nil.mp hab.symm).1 with ⟨_, h2⟩
        exact h2
  | cons c t ih =>
      simp only [containsSub, Bool.or_eq_true, startsB_iff, ih]
      constructor
      · rintro (⟨r, hr⟩ | ⟨a, b, hab⟩)
        · exact ⟨[], r, by simp [hr]⟩
        · exact ⟨c :: a, b, by simp [hab]⟩
      · rintro ⟨a, b, hab⟩
        cases a with
        | nil => exact Or.inl ⟨b, by simpa using hab⟩
        | cons a0 as =>
            injection hab with h1 h2
            exact Or.inr ⟨as, b, by simpa using h2⟩

theorem containsSub_append_left {p s : Str} (u : Str) (h : containsSub p s = true) :
    containsSub p (s ++ u) = true := by
  rcases (containsSub_iff p s).mp h with ⟨a, b, rfl⟩
  exact (containsSub_iff p _).mpr ⟨a, b ++ u, by simp⟩

theorem firstIdx_some {p : Str} : ∀ {s : Str} {i : Nat}, firstIdx p s = some i →
    ∃ r, s.drop i = p ++ r := by
  intro s
  induction s with
  | nil =>
      intro i h
      simp only [firstIdx] at h
      split at h
      · next hemp =>
          cases h
          exact ⟨[], by simp [List.isEmpty_iff.mp hemp]⟩
      · cases h
  | cons c t ih =>
      intro i h
      simp only [firstIdx] at h
      split at h
      · next hst =>
          cases h
          rcases (startsB_iff p (c :: t)).mp hst with ⟨r, hr⟩
          exact ⟨r, by simpa using hr⟩
      · rcases Option.map_eq_some'.mp h with ⟨i0, hi0, rfl⟩
        rcases ih hi0 with ⟨r, hr⟩
        exact ⟨r, by simpa using hr⟩

theorem firstIdx_le_length {p : Str} : ∀ {s : Str} {i : Nat}, firstIdx p s = some i →
    i ≤ s.length := by
  intro s
  induction s with
  | nil =>
      intro i h
      simp only [firstIdx] at h
      split at h
      · cases h; exact Nat.le_refl 0
      · cases h
  | cons c t ih =>
      intro i h
      simp only [firstIdx] at h
      split at h
      · cases h; exact Nat.zero_le _
      · rcases Option.map_eq_some'.mp h with ⟨i0, hi0, rfl⟩
        simpa using Nat.succ_le_succ (ih hi0)

theorem firstIdx_add_length_le {p s : Str} {i : Nat} (h : firstIdx p s = some i) :
    i + p.length ≤ s.length := by
  rcases firstIdx_some h with ⟨r, hr⟩
  have hlen : s.length - i = p.length + r.length := by
    simpa [List.length_drop] using congrArg List.length hr
  have hi := firstIdx_le_length h
  omega

theorem firstIdx_none_iff (p : Str) : ∀ s : Str, firstIdx p s = none ↔ containsSub p s = false := by
  intro s
  induction s with
  | nil =>
      cases hemp : p.isEmpty
      · simp [firstIdx, containsSub, hemp]
      · simp [firstIdx, containsSub, hemp]
  | cons c t ih =>
      cases hst : startsB p (c :: t)
      · simp [firstIdx, containsSub, hst, Option.map_eq_none', ih]
      · simp [firstIdx, containsSub, hst]

theorem lastNonWs_decomp {h : Str} (hne : h ≠ []) (hws : headIsWs h.reverse = false) :
    ∃ h0 c, h = h0 ++ [c] ∧ isPySpace c = false := by
  rcases List.eq_nil_or_concat h with rfl | ⟨h0, c, rfl⟩
  · exact absurd rfl hne
  · refine ⟨h0, c, by simp, ?_⟩
    have : (h0.concat c).reverse = c :: h0.reverse := by simp
    rw [this] at hws
    simpa [headIsWs] using hws

theorem rstrip_append_of_last (h0 : Str) (c : Char) (hc : isPySpace c = false) (r : Str) :
    ∃ y, rstrip ((h0 ++ [c]) ++ r) = (h0 ++ [c]) ++ y := by
  have hrev : ((h0 ++ [c]) ++ r).reverse = r.reverse ++ (c :: h0.reverse) := by
    simp
  have hdc : List.dropWhile isPySpace (c :: h0.reverse) = c :: h0.reverse := by
    simp [List.dropWhile_cons, hc]
  rw [rstrip, hrev, List.dropWhile_append]
  by_cases hre : (List.dropWhile isPySpace r.reverse).isEmpty = true
  · rw [if_pos hre, hdc]
    exact ⟨[], by simp⟩
  · rw [if_neg hre]
    exact ⟨(List.dropWhile isPySpace r.reverse).reverse, by simp⟩

theorem sectionEnd_ge {block h : Str} {start : Nat} (hfind : firstIdx h block = some start) :
    start + h.length ≤ sectionEnd block start h := by
  have hlen := firstIdx_add_length_le hfind
  rw [sectionEnd]
  cases hm : firstMatch (headingLevel h) (block.drop (start + h.length)) with
  | some i => simp [hm]
  | none => simpa [hm] using hlen

theorem pySlice_startsWith {block h : Str} {start e : Nat}
    (hfind : firstIdx h block = some start) (he : start + h.length ≤ e) :
    ∃ r1, pySlice block start e = h ++ r1 := by
  rcases firstIdx_some hfind with ⟨r, hr⟩
  rw [pySlice, hr, List.take_append_eq_append_take]
  refine ⟨List.take (e - start - h.length) r, ?_⟩
  rw [List.take_of_length_le (by omega)]

theorem extractSection_startsWith {block h : Str} {start : Nat}
    (hfind : firstIdx h block = some start)
    (hne : h ≠ []) (hws : headIsWs h.reverse = false) :
    ∃ y, extractSection block start h = h ++ y := by
  rcases pySlice_startsWith hfind (sectionEnd_ge hfind) with ⟨r1, hr1⟩
  rcases lastNonWs_decomp hne hws with ⟨h0, c, hdec, hc⟩
  rcases rstrip_append_of_last h0 c hc r1 with ⟨y0, hy0⟩
  refine ⟨y0 ++ ['\n'], ?_⟩
  rw [extractSection, hr1, hdec, hy0]
  simp

theorem mem_collectAdded_of (existing block : Str) :
    ∀ hs : List Str, ∀ h ∈ hs, containsSub h existing = false →
      ∀ start, firstIdx h block = some start →
        extractSection block start h ∈ collectAdded existing block hs := by
  intro hs
  induction hs with
  | nil => intro h hmem; cases hmem
  | cons h1 hs ih =>
      intro h hmem hcon start hfind
      rcases List.mem_cons.mp hmem with rfl | hmem2
      · simp [collectAdded, hcon, hfind]
      · by_cases hc1 : containsSub h1 existing = true
        · simpa [collectAdded, hc1] using ih h hmem2 hcon start hfind
        · have hc1' : containsSub h1 existing = false := by
            cases hcv : containsSub h1 existing
            · rfl
            · exact absurd hcv hc1
          cases hf1 : firstIdx h1 block with
          | none => simpa [collectAdded, hc1', hf1] using ih h hmem2 hcon start hfind
          | some s1 =>
              simp only [collectAdded, hc1', hf1]
              simp only [Bool.false_eq_true, if_false]
              exact List.mem_cons_of_mem _ (ih h hmem2 hcon start hfind)

theorem collectAdded_eq_nil (existing block : Str) :
    ∀ hs : List Str, collectAdded existing block hs = [] ↔
      ∀ h ∈ hs, containsSub h existing = true ∨ firstIdx h block = none := by
  intro hs
  induction hs with
  | nil => simp [collectAdded]
  | cons h1 hs ih =>
      constructor
      · intro hne h hmem
        rcases List.mem_cons.mp hmem with rfl | hmem2
        · by_cases hc1 : containsSub h existing = true
          · exact Or.inl hc1
          · cases hf1 : firstIdx h block with
            | none => exact Or.inr rfl
            | some s1 =>
                exfalso
                have hc1' : containsSub h existing = false := by
                  cases hcv : containsSub h existing
                  · rfl
                  · exact absurd hcv hc1
                simp [collectAdded, hc1', hf1] at hne
        · by_cases hc1 : containsSub h1 existing = true
          · rw [collectAdded, if_pos hc1] at hne
            exact (ih.mp hne) h hmem2
          · have hc1' : containsSub h1 existing = false := by
              cases hcv : containsSub h1 existing
              · rfl
              · exact absurd hcv hc1
            cases hf1 : firstIdx h1 block with
            | none =>
                rw [collectAdded, hc1'] at hne
                simp only [Bool.false_eq_true, if_false, hf1] at hne
                exact (ih.mp hne) h hmem2
            | some s1 =>
                rw [collectAdded, hc1'] at hne
                simp [hf1] at hne
      · intro hall
        rw [collectAdded]
        rcases hall h1 (List.mem_cons_self h1 hs) with hc1 | hf1
        · rw [if_pos hc1]
          exact ih.mpr (fun h hm => hall h (List.mem_cons_of_mem _ hm))
        · split
          · exact ih.mpr (fun h hm => hall h (List.mem_cons_of_mem _ hm))
          · rw [hf1]
            exact ih.mpr (fun h hm => hall h (List.mem_cons_of_mem _ hm))

theorem collectAdded_eq_filter_map (existing block : Str) :
    ∀ hs : List Str, collectAdded existing block hs =
      (hs.filter (fun h => !containsSub h existing && (firstIdx h block).isSome)).map
        (fun h => extractSection block ((firstIdx h block).getD 0) h) := by
  intro hs
  induction hs with
  | nil => simp [collectAdded]
  | cons h1 hs ih =>
      cases hc1 : containsSub h1 existing
      · cases hf1 : firstIdx h1 block with
        | none =>
            simp only [collectAdded, hc1, Bool.false_eq_true, if_false, hf1]
            simpa [List.filter_cons, hc1, hf1] using ih
        | some s1 =>
            simp only [collectAdded, hc1, Bool.false_eq_true, if_false, hf1]
            simp [List.filter_cons, hc1, hf1, ih]
      · simp [collectAdded, hc1, List.filter_cons]
        exact ih

theorem mem_flatten_parts {s : Str} :
    ∀ {l : List Str}, s ∈ l →
      ∃ a b, (l.map (fun t => '\n' :: t)).flatten = a ++ s ++ b := by
  intro l
  induction l with
  | nil => intro hmem; cases hmem
  | cons x xs ih =>
      intro hmem
      rcases List.mem_cons.mp hmem with rfl | hmem2
      · exact ⟨['\n'], (xs.map (fun t => '\n' :: t)).flatten, by simp⟩
      · rcases ih hmem2 with ⟨a, b, hab⟩
        exact ⟨('\n' :: x) ++ a, b, by simp [hab]⟩

theorem mem_appendedText {s : Str} {l : List Str} (hs : s ∈ l) :
    ∃ a b, appendedText l = a ++ s ++ b := by
  rcases mem_flatten_parts hs with ⟨a, b, hab⟩
  exact ⟨'\n' :: a, b, by simp [appendedText, hab]⟩

theorem appendedText_eq_blank_join :
    ∀ l : List Str, l ≠ [] → appendedText l = toL "\n\n" ++ joinWith (toL "\n") l := by
  intro l
  induction l with
  | nil => intro hne; exact absurd rfl hne
  | cons x xs ih =>
      intro _
      cases xs with
      | nil => simp [appendedText, joinWith, toL]
      | cons y zs =>
          have hx : appendedText (y :: zs) = toL "\n\n" ++ joinWith (toL "\n") (y :: zs) :=
            ih (by simp)
          have hflat : ((y :: zs).map (fun t => '\n' :: t)).flatten =
              '\n' :: joinWith (toL "\n") (y :: zs) := by
            have : toL "\n\n" = ['\n', '\n'] := rfl
            rw [this] at hx
            simpa [appendedText] using hx
          have h2 : toL "\n\n" = ['\n', '\n'] := rfl
          have h1 : toL "\n" = ['\n'] := rfl
          have hstep : (List.map (fun t => '\n' :: t) (x :: y :: zs)).flatten =
              ('\n' :: x) ++ (List.map (fun t => '\n' :: t) (y :: zs)).flatten := by
            simp
          have hj : joinWith (toL "\n") (x :: y :: zs) =
              x ++ toL "\n" ++ joinWith (toL "\n") (y :: zs) := rfl
          rw [appendedText, hstep, hflat, hj, h2, h1]
          simp

/-! ## Lemmas about the boundary regex -/

theorem drop_replicate_append (k : Nat) (x : Char) (u : Str) :
    (List.replicate k x ++ u).drop k = u := by
  have h := List.drop_left (List.replicate k x) u
  rwa [List.length_replicate] at h

theorem reMatchAt_iff (L : Nat) (s : Str) :
    reMatchAt L s = true ↔
      ∃ k c r, 1 ≤ k ∧ k ≤ L ∧ isPySpace c = true ∧
        s = '\n' :: (List.replicate k '#' ++ c :: r) := by
  cases s with
  | nil =>
      constructor
      · intro h; simp [reMatchAt] at h
      · rintro ⟨k, c, r, _, _, _, h⟩; cases h
  | cons c0 t =>
      simp only [reMatchAt, Bool.and_eq_true, beq_iff_eq, List.any_eq_true, List.mem_range]
      constructor
      · rintro ⟨rfl, k0, hk0, hsb1, hws⟩
        rcases (startsB_iff (List.replicate (k0 + 1) '#') t).mp hsb1 with ⟨r0, hr0⟩
        have hdrop : t.drop (k0 + 1) = r0 := by
          rw [hr0]; exact drop_replicate_append _ _ _
        rw [hdrop] at hws
        cases r0 with
        | nil => simp [headIsWs] at hws
        | cons c r2 =>
            refine ⟨k0 + 1, c, r2, Nat.le_add_left 1 k0, hk0, ?_, ?_⟩
            · simpa [headIsWs] using hws
            · rw [hr0]
      · rintro ⟨k, c, r, hk1, hkL, hws, heq⟩
        injection heq with h1 h2
        have hk : k - 1 + 1 = k := Nat.sub_add_cancel hk1
        refine ⟨h1, k - 1, by omega, ?_, ?_⟩
        · rw [hk]
          exact (startsB_iff _ t).mpr ⟨c :: r, h2⟩
        · rw [hk, h2, drop_replicate_append]
          simpa [headIsWs] using hws

theorem firstMatch_none_iff (L : Nat) :
    ∀ s : Str, firstMatch L s = none ↔ ∀ j, reMatchAt L (s.drop j) = false := by
  intro s
  induction s with
  | nil => simp [firstMatch, reMatchAt]
  | cons c t ih =>
      cases hre : reMatchAt L (c :: t)
      · simp only [firstMatch, hre, Bool.false_eq_true, if_false, Option.map_eq_none', ih]
        constructor
        · intro hall j
          cases j with
          | zero => simpa using hre
          | succ j0 => simpa using hall j0
        · intro hall j
          simpa using hall (j + 1)
      · simp only [firstMatch, hre, if_true]
        constructor
        · intro h; cases h
        · intro hall
          have h0 := hall 0
          simp [hre] at h0


theorem firstMatch_some_spec (L : Nat) :
    ∀ (s : Str) (i : Nat), firstMatch L s = some i →
      reMatchAt L (s.drop i) = true ∧ ∀ j < i, reMatchAt L (s.drop j) = false := by
  intro s
  induction s with
  | nil => intro i h; simp [firstMatch] at h
  | cons c t ih =>
      intro i h
      cases hre : reMatchAt L (c :: t)
      · rw [firstMatch] at h
        simp only [hre, Bool.false_eq_true, if_false] at h
        rcases Option.map_eq_some'.mp h with ⟨i0, hi0, rfl⟩
        rcases ih i0 hi0 with ⟨h1, h2⟩
        constructor
        · simpa using h1
        · intro j hj
          cases j with
          | zero => simpa using hre
          | succ j0 => simpa using h2 j0 (by omega)
      · rw [firstMatch] at h
        simp only [hre, if_true, Option.some.injEq] at h
        subst h
        exact ⟨by simpa using hre, fun j hj => absurd hj (by omega)⟩

theorem headingBoundaryAt_iff {L : Nat} {s : Str} {j : Nat} :
    HeadingBoundaryAt L s j ↔ reMatchAt L (s.drop j) = true := by
  rw [HeadingBoundaryAt, reMatchAt_iff]

theorem not_boundary_of_deeper {L : Nat} {s : Str} {j : Nat}
    (hd : ∃ r, s.drop j = '\n' :: (List.replicate (L + 1) '#' ++ r)) :
    ¬ HeadingBoundaryAt L s j := by
  rintro ⟨k, c, r2, hk1, hkL, hws, heq⟩
  rcases hd with ⟨r, hr⟩
  rw [hr] at heq
  injection heq with _ h2
  have hsplit : List.replicate (L + 1) '#' = List.replicate k '#' ++ List.replicate (L + 1 - k) '#' := by
    rw [← List.replicate_add]
    congr 1
    omega
  rw [hsplit, List.append_assoc] at h2
  have h3 := congrArg (List.drop k) h2
  rw [drop_replicate_append, drop_replicate_append] at h3
  have hone : L + 1 - k = (L - k) + 1 := by omega
  rw [hone, List.replicate_succ] at h3
  injection h3 with h4
  rw [← h4] at hws
  simp [isPySpace] at hws

theorem headings_ok : ∀ h ∈ WORKFLOW_SECTIONS, h ≠ [] ∧ headIsWs h.reverse = false := by
  decide

theorem collectAdded_eq_collectAddedSimple (existing block : Str) :
    ∀ hs : List Str, collectAdded existing block hs = collectAddedSimple existing block hs := by
  intro hs
  induction hs with
  | nil => rfl
  | cons h1 hs ih =>
      rw [collectAdded, collectAddedSimple]
      cases hc : containsSub h1 existing
      · simp only [Bool.false_eq_true, if_false]
        cases hf : firstIdx h1 block with
        | none => exact ih
        | some s1 => exact congrArg₂ (· :: ·) rfl ih
      · simp only [if_true]
        exact ih

/-! ## The claims -/

/-- C9: merge_into is append-only: the original target content is a literal
prefix of the content after the operation (nothing before the original end
of file is modified). -/
theorem merge_into_append_only (existing template : Str) :
    ∃ app, (merge_into existing template).content = existing ++ app := by
  cases hf : firstIdx firstSectionHeading template with
  | none => exact ⟨[], by simp [merge_into, hf]⟩
  | some idx =>
      cases hadd : collectAdded existing (template.drop idx) WORKFLOW_SECTIONS with
      | nil => exact ⟨[], by simp [merge_into, hf, hadd]⟩
      | cons a as =>
          exact ⟨appendedText (a :: as), by simp [merge_into, hf, hadd]⟩

/-- C5: when the first recognized heading does not occur in the template,
merge_into is a no-op that reports "nothing to merge": no section is
extracted and the target document is untouched. -/
theorem merge_into_no_workflow (existing template : Str)
    (habs : containsSub firstSectionHeading template = false) :
    merge_into existing template = ⟨existing, [], .noWorkflow⟩ := by
  have hf : firstIdx firstSectionHeading template = none :=
    (firstIdx_none_iff _ template).mpr habs
  simp [merge_into, hf]

/-- Witness for C5 at a concrete template that has no workflow heading. -/
theorem merge_into_no_workflow_witness :
    containsSub firstSectionHeading (toL "hello") = false ∧
    merge_into (toL "x") (toL "hello") = ⟨toL "x", [], .noWorkflow⟩ :=
  ⟨by decide, merge_into_no_workflow (toL "x") (toL "hello") (by decide)⟩

/-- C4: when every recognized heading already occurs verbatim in the target
document, merge_into produces zero additions, performs no write, and leaves
the target unchanged. -/
theorem merge_into_all_present (existing template : Str)
    (hall : ∀ h ∈ WORKFLOW_SECTIONS, containsSub h existing = true) :
    (merge_into existing template).content = existing ∧
    (merge_into existing template).added = [] ∧
    (merge_into existing template).wrote = false := by
  cases hf : firstIdx firstSectionHeading template with
  | none => simp [merge_into, hf, MergeResult.wrote]
  | some idx =>
      have hnil : collectAdded existing (template.drop idx) WORKFLOW_SECTIONS = [] :=
        (collectAdded_eq_nil _ _ _).mpr (fun h hm => Or.inl (hall h hm))
      simp [merge_into, hf, hnil, MergeResult.wrote]

/-- Witness for C4 at a concrete target containing all six headings. -/
theorem merge_into_all_present_witness :
    (∀ h ∈ WORKFLOW_SECTIONS, containsSub h
      (toL "## Workflow: Plan → Grind\n### Plan (default)\n### Grind (on approval)\n### Fullgate\n### Claiming Work (GitHub)\n### Teams") = true) ∧
    (merge_into
      (toL "## Workflow: Plan → Grind\n### Plan (default)\n### Grind (on approval)\n### Fullgate\n### Claiming Work (GitHub)\n### Teams")
      (toL "## Workflow: Plan → Grind\nx")).content =
      toL "## Workflow: Plan → Grind\n### Plan (default)\n### Grind (on approval)\n### Fullgate\n### Claiming Work (GitHub)\n### Teams" ∧
    (merge_into
      (toL "## Workflow: Plan → Grind\n### Plan (default)\n### Grind (on approval)\n### Fullgate\n### Claiming Work (GitHub)\n### Teams")
      (toL "## Workflow: Plan → Grind\nx")).added = [] ∧
    (merge_into
      (toL "## Workflow: Plan → Grind\n### Plan (default)\n### Grind (on approval)\n### Fullgate\n### Claiming Work (GitHub)\n### Teams")
      (toL "## Workflow: Plan → Grind\nx")).wrote = false :=
  ⟨by decide, merge_into_all_present _ _ (by decide)⟩

/-- C8: when the network fetch raises, main aborts before any filesystem
write: the filesystem state is returned unchanged. -/
theorem pyMain_fetch_failure (fs : FS) (rawChoice nameAns buildAns testAns : Str)
    (defaults : Str × Str × Str) :
    pyMain (Except.error ()) fs rawChoice nameAns buildAns testAns defaults =
      (.fetchFailed, fs) := rfl

/-- C7: the dead boundary computations (the `"\n## "` search and the `end2`
scan) have no effect: merge_into coincides with the variant in which only
the final line-level scan determines each section's end. -/
theorem merge_into_eq_simple (existing template : Str) :
    merge_into existing template = mergeIntoSimple existing template := by
  cases hf : firstIdx firstSectionHeading template with
  | none => simp [merge_into, mergeIntoSimple, hf]
  | some idx =>
      simp [merge_into, mergeIntoSimple, hf,
        collectAdded_eq_collectAddedSimple existing (template.drop idx) WORKFLOW_SECTIONS]

/-- C3: merge is idempotent: a second run against the first run's output
adds nothing, writes nothing, and leaves the document unchanged. -/
theorem merge_into_idempotent (existing template : Str) :
    (merge_into (merge_into existing template).content template).content =
      (merge_into existing template).content ∧
    (merge_into (merge_into existing template).content template).added = [] ∧
    (merge_into (merge_into existing template).content template).wrote = false := by
  cases hf : firstIdx firstSectionHeading template with
  | none => simp [merge_into, hf, MergeResult.wrote]
  | some idx =>
      cases hadd : collectAdded existing (template.drop idx) WORKFLOW_SECTIONS with
      | nil => simp [merge_into, hf, hadd, MergeResult.wrote]
      | cons a as =>
          have hr1 : merge_into existing template =
              ⟨existing ++ appendedText (a :: as), a :: as, .merged⟩ := by
            simp [merge_into, hf, hadd]
          have hkey : collectAdded (existing ++ appendedText (a :: as))
              (template.drop idx) WORKFLOW_SECTIONS = [] := by
            apply (collectAdded_eq_nil _ _ _).mpr
            intro h hm
            cases hc : containsSub h existing
            · cases hfh : firstIdx h (template.drop idx) with
              | none => exact Or.inr rfl
              | some s1 =>
                  left
                  have hmem : extractSection (template.drop idx) s1 h ∈
                      collectAdded existing (template.drop idx) WORKFLOW_SECTIONS :=
                    mem_collectAdded_of existing (template.drop idx) WORKFLOW_SECTIONS
                      h hm hc s1 hfh
                  rw [hadd] at hmem
                  rcases mem_appendedText hmem with ⟨u, v, huv⟩
                  rcases headings_ok h hm with ⟨hne, hws⟩
                  rcases extractSection_startsWith hfh hne hws with ⟨y, hy⟩
                  rw [hy] at huv
                  apply (containsSub_iff h _).mpr
                  exact ⟨existing ++ u, y ++ v, by simp [huv]⟩
            · exact Or.inl (containsSub_append_left _ hc)
          have hr2 : merge_into (existing ++ appendedText (a :: as)) template =
              ⟨existing ++ appendedText (a :: as), [], .allPresent⟩ := by
            simp [merge_into, hf, hkey]
          rw [hr1]
          rw [hr2]
          exact ⟨rfl, rfl, rfl⟩

/-- C2: every extracted section equals the template span from the heading
start to the computed end, right-trimmed, with exactly one trailing newline
appended; when sections are merged, the target gains one blank line
followed by the collected sections separated by blank lines, in
recognized-heading list order. -/
theorem merge_into_content_spec (existing template : Str)
    (hm : (merge_into existing template).msg = MergeMsg.merged) :
    ∃ idx, firstIdx firstSectionHeading template = some idx ∧
      (merge_into existing template).added =
        (WORKFLOW_SECTIONS.filter
          (fun h => !containsSub h existing && (firstIdx h (template.drop idx)).isSome)).map
          (fun h =>
            rstrip (pySlice (template.drop idx) ((firstIdx h (template.drop idx)).getD 0)
              (sectionEnd (template.drop idx) ((firstIdx h (template.drop idx)).getD 0) h))
              ++ ['\n']) ∧
      (merge_into existing template).content =
        existing ++ toL "\n\n" ++
          joinWith (toL "\n") ((merge_into existing template).added) := by
  cases hf : firstIdx firstSectionHeading template with
  | none => rw [merge_into, hf] at hm; cases hm
  | some idx =>
      cases hadd : collectAdded existing (template.drop idx) WORKFLOW_SECTIONS with
      | nil => rw [merge_into, hf] at hm; simp [hadd] at hm
      | cons a as =>
          have hr1 : merge_into existing template =
              ⟨existing ++ appendedText (a :: as), a :: as, .merged⟩ := by
            simp [merge_into, hf, hadd]
          refine ⟨idx, rfl, ?_, ?_⟩
          · rw [hr1, ← hadd]
            exact collectAdded_eq_filter_map existing (template.drop idx) WORKFLOW_SECTIONS
          · rw [hr1]
            have hjoin := appendedText_eq_blank_join (a :: as) (by simp)
            simp [hjoin]

/-- Witness for C2 at a concrete template whose merge writes. -/
theorem merge_into_content_spec_witness :
    (merge_into [] (toL "## Workflow: Plan → Grind\nx")).msg = MergeMsg.merged ∧
    (∃ idx, firstIdx firstSectionHeading (toL "## Workflow: Plan → Grind\nx") = some idx ∧
      (merge_into [] (toL "## Workflow: Plan → Grind\nx")).added =
        (WORKFLOW_SECTIONS.filter
          (fun h => !containsSub h [] &&
            (firstIdx h ((toL "## Workflow: Plan → Grind\nx").drop idx)).isSome)).map
          (fun h =>
            rstrip (pySlice ((toL "## Workflow: Plan → Grind\nx").drop idx)
              ((firstIdx h ((toL "## Workflow: Plan → Grind\nx").drop idx)).getD 0)
              (sectionEnd ((toL "## Workflow: Plan → Grind\nx").drop idx)
                ((firstIdx h ((toL "## Workflow: Plan → Grind\nx").drop idx)).getD 0) h))
              ++ ['\n']) ∧
      (merge_into [] (toL "## Workflow: Plan → Grind\nx")).content =
        [] ++ toL "\n\n" ++
          joinWith (toL "\n") ((merge_into [] (toL "## Workflow: Plan → Grind\nx")).added)) :=
  ⟨by decide, merge_into_content_spec [] (toL "## Workflow: Plan → Grind\nx") (by decide)⟩

/-- C1 (amended): the extracted section's end is the start of the first
match, after the heading text, of a newline followed by 1..L hash marks and
a whitespace character (not only a literal space), or the end of the
workflow block when there is no such match; and a position carrying more
than L hash marks (a deeper heading) is never such a boundary, so a deeper
heading immediately following the heading lies inside the span. -/
theorem sectionEnd_boundary_spec (block heading : Str) (start : Nat) :
    (∀ j, start + heading.length ≤ j → j < sectionEnd block start heading →
        ¬ HeadingBoundaryAt (headingLevel heading) block j) ∧
    (sectionEnd block start heading = block.length ∨
      (start + heading.length ≤ sectionEnd block start heading ∧
        HeadingBoundaryAt (headingLevel heading) block (sectionEnd block start heading))) ∧
    (∀ j r, block.drop j = '\n' :: (List.replicate (headingLevel heading + 1) '#' ++ r) →
        ¬ HeadingBoundaryAt (headingLevel heading) block j) := by
  refine ⟨?_, ?_, fun j r hjr => not_boundary_of_deeper ⟨r, hjr⟩⟩
  · intro j hSj hje
    rw [headingBoundaryAt_iff]
    have hjd : (block.drop (start + heading.length)).drop (j - (start + heading.length)) =
        block.drop j := by
      rw [List.drop_drop]
      congr 1
      omega
    cases hm : firstMatch (headingLevel heading) (block.drop (start + heading.length)) with
    | none =>
        have hall := (firstMatch_none_iff (headingLevel heading)
          (block.drop (start + heading.length))).mp hm
        have hfalse := hall (j - (start + heading.length))
        rw [hjd] at hfalse
        simp [hfalse]
    | some i =>
        have he : sectionEnd block start heading = start + heading.length + i := by
          simp [sectionEnd, hm]
        rw [he] at hje
        rcases firstMatch_some_spec _ _ _ hm with ⟨_, h2⟩
        have hfalse := h2 (j - (start + heading.length)) (by omega)
        rw [hjd] at hfalse
        simp [hfalse]
  · cases hm : firstMatch (headingLevel heading) (block.drop (start + heading.length)) with
    | none => exact Or.inl (by simp [sectionEnd, hm])
    | some i =>
        right
        have he : sectionEnd block start heading = start + heading.length + i := by
          simp [sectionEnd, hm]
        rcases firstMatch_some_spec _ _ _ hm with ⟨h1, _⟩
        rw [List.drop_drop] at h1
        refine ⟨by omega, ?_⟩
        rw [headingBoundaryAt_iff, he]
        exact h1

/-- C1 counterexample: the code's boundary regex accepts any whitespace
character after the hash marks, not only a space.  On a template whose
workflow block contains a lone `#` line, the code ends the section there
while the claim's literal-space rule would run to the end of the block, so
the extracted text differs. -/
theorem sectionEnd_space_counterexample :
    sectionEnd (toL "## Workflow: Plan → Grind\nbody\n#\ntail") 0
        (toL "## Workflow: Plan → Grind") ≠
      sectionEndSpace (toL "## Workflow: Plan → Grind\nbody\n#\ntail") 0
        (toL "## Workflow: Plan → Grind") ∧
    extractSection (toL "## Workflow: Plan → Grind\nbody\n#\ntail") 0
        (toL "## Workflow: Plan → Grind") ≠
      rstrip (pySlice (toL "## Workflow: Plan → Grind\nbody\n#\ntail") 0
        (sectionEndSpace (toL "## Workflow: Plan → Grind\nbody\n#\ntail") 0
          (toL "## Workflow: Plan → Grind"))) ++ ['\n'] := by
  decide

theorem pySplit_ne_nil (s pat : Str) : pySplit s pat ≠ [] := by
  induction s, pat using pySplit.induct with
  | case1 pat => simp [pySplit]
  | case2 pat c t h ih =>
      simp only [pySplit]
      rw [if_pos h]
      simp
  | case3 pat c t h ih =>
      simp only [pySplit]
      rw [if_neg h]
      cases hsp : pySplit t pat with
      | nil => simp [consHead]
      | cons p ps => simp [consHead]

theorem pySplit_first_piece : ∀ (s pat p : Str) (ps : List Str),
    pySplit s pat = p :: ps → ∃ r, s = p ++ r := by
  intro s pat
  induction s, pat using pySplit.induct with
  | case1 pat =>
      intro p ps h
      simp only [pySplit] at h
      injection h with h1 _
      exact ⟨[], by simp [← h1]⟩
  | case2 pat c t h ih =>
      intro p ps hsp
      simp only [pySplit] at hsp
      rw [if_pos h] at hsp
      injection hsp with h1 _
      exact ⟨c :: t, by rw [← h1]; rfl⟩
  | case3 pat c t h ih =>
      intro p ps hsp
      simp only [pySplit] at hsp
      rw [if_neg h] at hsp
      cases hsp2 : pySplit t pat with
      | nil => exact absurd hsp2 (pySplit_ne_nil t pat)
      | cons p0 ps0 =>
          rw [hsp2] at hsp
          simp only [consHead] at hsp
          injection hsp with h1 _
          rcases ih p0 ps0 hsp2 with ⟨r, hr⟩
          exact ⟨r, by rw [← h1, hr]; rfl⟩

theorem pyReplaceFuel_eq_joinWith (pat rep : Str) (_hp : pat ≠ []) :
    ∀ fuel (s : Str), s.length ≤ fuel →
      pyReplaceFuel pat rep fuel s = joinWith rep (pySplit s pat) := by
  intro fuel
  induction fuel with
  | zero =>
      intro s hs
      have hnil : s = [] := List.eq_nil_of_length_eq_zero (Nat.le_zero.mp hs)
      subst hnil
      simp [pyReplaceFuel, pySplit, joinWith]
  | succ fuel ih =>
      intro s hs
      cases s with
      | nil => simp [pyReplaceFuel, pySplit, joinWith]
      | cons c t =>
          by_cases h : pat ≠ [] ∧ startsB pat (c :: t) = true
          · simp only [pyReplaceFuel, pySplit]
            rw [if_pos h, if_pos h]
            have hdlen : ((c :: t).drop pat.length).length ≤ fuel := by
              have hp1 : 0 < pat.length := List.length_pos.mpr h.1
              simp only [List.length_drop, List.length_cons]
              simp only [List.length_cons] at hs
              omega
            cases hsp : pySplit ((c :: t).drop pat.length) pat with
            | nil => exact absurd hsp (pySplit_ne_nil _ _)
            | cons q qs =>
                have hjw : joinWith rep ([] :: q :: qs) =
                    [] ++ rep ++ joinWith rep (q :: qs) := rfl
                rw [hjw, ih _ hdlen, hsp]
                simp
          · simp only [pyReplaceFuel, pySplit]
            rw [if_neg h, if_neg h]
            have htlen : t.length ≤ fuel := by
              simp only [List.length_cons] at hs
              omega
            cases hsp : pySplit t pat with
            | nil => exact absurd hsp (pySplit_ne_nil _ _)
            | cons q qs =>
                rw [ih _ htlen, hsp]
                cases qs with
                | nil => simp [consHead, joinWith]
                | cons q2 qs2 =>
                    have h1 : joinWith rep ((c :: q) :: q2 :: qs2) =
                        (c :: q) ++ rep ++ joinWith rep (q2 :: qs2) := rfl
                    have h2 : joinWith rep (q :: q2 :: qs2) =
                        q ++ rep ++ joinWith rep (q2 :: qs2) := rfl
                    simp [consHead, h1, h2]

theorem pyReplace_eq_joinWith : ∀ s pat rep : Str, pat ≠ [] →
    pyReplace s pat rep = joinWith rep (pySplit s pat) := by
  intro s pat rep hp
  exact pyReplaceFuel_eq_joinWith pat rep hp s.length s (Nat.le_refl _)

theorem pySplit_no_pat : ∀ s pat : Str, pat ≠ [] →
    ∀ p ∈ pySplit s pat, containsSub pat p = false := by
  intro s pat
  induction s, pat using pySplit.induct with
  | case1 pat =>
      intro hp p hmem
      simp only [pySplit, List.mem_singleton] at hmem
      subst hmem
      rw [containsSub]
      cases hpe : pat.isEmpty
      · rfl
      · exact absurd (List.isEmpty_iff.mp hpe) hp
  | case2 pat c t h ih =>
      intro hp p hmem
      simp only [pySplit] at hmem
      rw [if_pos h] at hmem
      rcases List.mem_cons.mp hmem with rfl | hmem2
      · rw [containsSub]
        cases hpe : pat.isEmpty
        · rfl
        · exact absurd (List.isEmpty_iff.mp hpe) hp
      · exact ih hp p hmem2
  | case3 pat c t h ih =>
      intro hp p hmem
      simp only [pySplit] at hmem
      rw [if_neg h] at hmem
      cases hsp : pySplit t pat with
      | nil => exact absurd hsp (pySplit_ne_nil t pat)
      | cons q qs =>
          rw [hsp] at hmem
          simp only [consHead] at hmem
          rcases List.mem_cons.mp hmem with rfl | hmem2
          · have hq : containsSub pat q = false :=
              ih hp q (by rw [hsp]; exact List.mem_cons_self q qs)
            have hsb : startsB pat (c :: q) = false := by
              cases hsbv : startsB pat (c :: q)
              · rfl
              · exfalso
                rcases (startsB_iff pat (c :: q)).mp hsbv with ⟨r, hr⟩
                rcases pySplit_first_piece t pat q qs hsp with ⟨u, hu⟩
                have hful : startsB pat (c :: t) = true := by
                  apply (startsB_iff pat (c :: t)).mpr
                  refine ⟨r ++ u, ?_⟩
                  rw [hu, ← List.cons_append, hr, List.append_assoc]
                exact h ⟨hp, hful⟩
            rw [containsSub, hsb, hq]
            rfl
          · exact ih hp p (by rw [hsp]; exact List.mem_cons_of_mem q hmem2)

/-- C6 counterexample: the three replacements are not order-independent for
all supplied values: with a project name that is itself the build-command
token, replacing the project name first substitutes the build command into
it, while replacing the build command first leaves the token in place. -/
theorem fillTemplate_order_counterexample :
    fillTemplate PROJECT_NAME_TOKEN BUILD_COMMAND_TOKEN (toL "B") (toL "T") ≠
      fillTemplateAltOrder PROJECT_NAME_TOKEN BUILD_COMMAND_TOKEN (toL "B") (toL "T") := by
  decide

/-- C6 (amended): the placeholder filler performs the three literal
replacements in the fixed source order project name, build command, test
command; each pass splits the text at the leftmost non-overlapping
occurrences of its token then present and interposes the supplied value
without rescanning it (no recursive substitution within a pass), and no
piece of such a split still contains the token.  Order-independence does
not hold in general once a supplied value contains a placeholder token. -/
theorem fillTemplate_split_spec (t n b te : Str) :
    fillTemplate t n b te =
      joinWith te (pySplit (joinWith b (pySplit (joinWith n (pySplit t PROJECT_NAME_TOKEN))
        BUILD_COMMAND_TOKEN)) TEST_COMMAND_TOKEN) ∧
    (∀ pat s : Str, pat ≠ [] → ∀ p ∈ pySplit s pat, containsSub pat p = false) := by
  constructor
  · rw [fillTemplate, pyReplace_eq_joinWith _ _ _ (by decide),
      pyReplace_eq_joinWith _ _ _ (by decide), pyReplace_eq_joinWith _ _ _ (by decide)]
  · exact fun pat s hp => pySplit_no_pat s pat hp

/-- C10 (amended): when CLAUDE.md exists, the prompt answer is stripped of
whitespace and lowercased; a normalized choice of "c" or the empty string
cancels with exit code 0 and touches nothing, and any other normalized
choice except "m" proceeds as a full overwrite of CLAUDE.md. -/
theorem pyMain_choice_spec (template : Str) (fs : FS) (raw nA bA tA : Str)
    (d : Str × Str × Str) (hex : fs.claude.isSome = true) :
    ((normChoice raw = toL "c" ∨ normChoice raw = []) →
        pyMain (Except.ok template) fs raw nA bA tA d = (.cancelled, fs)) ∧
    (normChoice raw ≠ toL "c" → normChoice raw ≠ [] → normChoice raw ≠ toL "m" →
        pyMain (Except.ok template) fs raw nA bA tA d =
          (.finished,
            ⟨some (fillTemplate template (promptVal nA d.1) (promptVal bA d.2.1)
              (promptVal tA d.2.2)), true⟩)) := by
  constructor
  · intro hc
    rcases hc with hc | hc <;> simp [pyMain, hex, hc]
  · intro h1 h2 h3
    obtain ⟨cl, ag⟩ := fs
    cases ag <;> simp [pyMain, create_agents_symlink, hex, h1, h2, h3]

/-- C10 counterexample: the raw answer "C" is none of "c", the empty
string, and "m", yet the run cancels instead of overwriting, because the
code lowercases the answer before comparing. -/
theorem pyMain_uppercase_cancels :
    pyMain (Except.ok (toL "T")) ⟨some (toL "old"), false⟩ (toL "C") (toL "") (toL "") (toL "")
        (toL "N", toL "B", toL "E") = (.cancelled, ⟨some (toL "old"), false⟩) ∧
    toL "C" ≠ toL "c" ∧ toL "C" ≠ ([] : Str) ∧ toL "C" ≠ toL "m" := by
  decide

/-- Witness for C10 (amended) at the raw answer "x". -/
theorem pyMain_choice_spec_witness :
    (FS.mk (some (toL "old")) false).claude.isSome = true ∧
    normChoice (toL "x") ≠ toL "c" ∧ normChoice (toL "x") ≠ [] ∧
    normChoice (toL "x") ≠ toL "m" ∧
    pyMain (Except.ok (toL "T")) ⟨some (toL "old"), false⟩ (toL "x") (toL "") (toL "") (toL "")
        (toL "N", toL "B", toL "E") =
      (.finished,
        ⟨some (fillTemplate (toL "T") (promptVal (toL "") (toL "N"))
          (promptVal (toL "") (toL "B")) (promptVal (toL "") (toL "E"))), true⟩) :=
  ⟨by decide, by decide, by decide, by decide,
    (pyMain_choice_spec (toL "T") ⟨some (toL "old"), false⟩ (toL "x") (toL "") (toL "") (toL "")
      (toL "N", toL "B", toL "E") (by decide)).2 (by decide) (by decide) (by decide)⟩

end Setup
